import Mathlib

/-!
Verification of the image-conversion service core.

Strings are modelled as `List Char`.  The JavaScript source is embedded
shallowly: each function under scrutiny becomes an executable Lean
definition that mirrors the source line by line; exceptions become
`Except`, JavaScript `null`/`undefined` become `Option`.
-/

set_option maxRecDepth 4096

/-! ## Basic character predicates -/

/-- Whitespace characters collapsed or trimmed by the JavaScript string
operations `trim()` and the regex class `\s` (ASCII portion plus NBSP and
BOM; more exotic Unicode spaces never occur in the properties below). -/
def jsWhitespace (c : Char) : Bool :=
  c == ' ' || c == '\t' || c == '\n' || c == '\r' ||
  c == '\x0b' || c == '\x0c' || c == Char.ofNat 160 || c == Char.ofNat 65279

/-- Characters accepted by the folder regex `[a-zA-Z0-9/_-]` in
`sanitizeFolder`. -/
def isAllowedFolderChar (c : Char) : Bool :=
  (c.isUpper || c.isLower) || c.isDigit || c == '/' || c == '_' || c == '-'

/-- Characters kept by `makeBaseName` after the strip step, i.e. the
regex class `[a-z0-9-_.]`.  This is also exactly the class
`[a-z0-9_.-]` of the advertised output shape. -/
def isKeepChar (c : Char) : Bool :=
  c.isLower || c.isDigit || c == '-' || c == '_' || c == '.'

/-- Lower-case hexadecimal digits, the alphabet of the random suffix
produced by the hex rendering of six random bytes. -/
def isHexLowerDigit (c : Char) : Bool :=
  c.isDigit || (('a' ≤ c) && (c ≤ 'f'))

/-! ## JavaScript string helpers -/

/-- Model of `String.prototype.trim()`: drop whitespace from both ends. -/
def jsTrim (s : List Char) : List Char :=
  ((s.dropWhile jsWhitespace).reverse.dropWhile jsWhitespace).reverse

/-- Model of `.replace(/\\/g, "/")`: every backslash becomes a slash. -/
def bslashToSlash (s : List Char) : List Char :=
  s.map (fun c => if c == '\\' then '/' else c)

/-- Model of `.replace(/^\/+|\/+$/g, "")`: drop slashes from both ends. -/
def trimSlashes (s : List Char) : List Char :=
  ((s.dropWhile (fun c => c == '/')).reverse.dropWhile (fun c => c == '/')).reverse

/-- Model of `cleaned.includes("..")`: some two adjacent dots occur. -/
def hasDotDot : List Char → Bool
  | a :: b :: rest => (a == '.' && b == '.') || hasDotDot (b :: rest)
  | _ => false

/-- Model of `cleaned.startsWith(".")`. -/
def startsWithDot : List Char → Bool
  | c :: _ => c == '.'
  | [] => false

/-- Model of the test `/^[a-zA-Z0-9\/_-]+$/.test(cleaned)`: non-empty and
every character allowed. -/
def folderRegexTest (s : List Char) : Bool :=
  !s.isEmpty && s.all isAllowedFolderChar

/-! ## Path Sandbox: sanitizeFolder -/

/-- Errors raised by the path-sandbox stage.  `invalidFolder` is the
`"Invalid folder"` throw of `sanitizeFolder`; `invalidPath` is the
`"Invalid path"` throw of `ensureInsideBase`. -/
inductive SandboxError where
  | invalidFolder
  | invalidPath
deriving DecidableEq, Repr

/-- Normalization applied by `sanitizeFolder` before its checks:
`trim()`, backslash-to-slash conversion, and trimming of leading and
trailing slashes. -/
def normalizeFolder (s : List Char) : List Char :=
  trimSlashes (bslashToSlash (jsTrim s))

/-- Embedding of `sanitizeFolder` from the persisted variant: an empty
(trimmed) input yields the empty folder; otherwise the cleaned string is
rejected when it contains `..`, starts with a dot, contains a null byte,
or fails the character-class regex. -/
def sanitizeFolder (input : List Char) : Except SandboxError (List Char) :=
  if (jsTrim input).isEmpty then .ok []
  else
    let cleaned := normalizeFolder input
    if hasDotDot cleaned || startsWithDot cleaned || cleaned.contains '\x00' then
      .error .invalidFolder
    else if !folderRegexTest cleaned then
      .error .invalidFolder
    else .ok cleaned

/-! ## Small list lemmas -/

theorem mem_of_mem_dropWhile (p : Char → Bool) {c : Char} :
    ∀ {l : List Char}, c ∈ l.dropWhile p → c ∈ l := by
  intro l
  induction l with
  | nil => intro h; exact absurd h (by simp [List.dropWhile])
  | cons a rest ih =>
    intro h
    by_cases hp : p a
    · rw [List.dropWhile_cons_of_pos hp] at h
      exact List.mem_cons_of_mem a (ih h)
    · rw [List.dropWhile_cons_of_neg hp] at h
      exact h

theorem mem_dropWhile_of_mem (p : Char → Bool) {c : Char} (hc : p c = false) :
    ∀ {l : List Char}, c ∈ l → c ∈ l.dropWhile p := by
  intro l
  induction l with
  | nil => intro h; exact absurd h (by simp)
  | cons a rest ih =>
    intro h
    by_cases hp : p a
    · rw [List.dropWhile_cons_of_pos hp]
      rcases List.mem_cons.mp h with h1 | h2
      · subst h1; rw [hc] at hp; exact absurd hp (by simp)
      · exact ih h2
    · rw [List.dropWhile_cons_of_neg hp]
      exact h

theorem dropWhile_eq_self_of_none (p : Char → Bool) {l : List Char}
    (h : ∀ c ∈ l, p c = false) : l.dropWhile p = l := by
  cases l with
  | nil => rfl
  | cons a rest =>
    have ha : p a = false := h a (List.mem_cons_self a rest)
    simp [List.dropWhile, ha]

theorem mem_trimSlashes_of_mem {c : Char} {l : List Char}
    (hmem : c ∈ l) (hc : ¬ c = '/') : c ∈ trimSlashes l := by
  unfold trimSlashes
  have hcf : (fun x => x == '/') c = false := by
    simp only [beq_eq_false_iff_ne, ne_eq]; exact hc
  rw [List.mem_reverse]
  apply mem_dropWhile_of_mem (fun x => x == '/') hcf
  rw [List.mem_reverse]
  exact mem_dropWhile_of_mem (fun x => x == '/') hcf hmem

theorem mem_of_mem_trimSlashes {c : Char} {l : List Char}
    (h : c ∈ trimSlashes l) : c ∈ l := by
  unfold trimSlashes at h
  rw [List.mem_reverse] at h
  have h2 := mem_of_mem_dropWhile (fun c => c == '/') h
  rw [List.mem_reverse] at h2
  exact mem_of_mem_dropWhile (fun c => c == '/') h2

theorem jsTrim_eq_self {l : List Char} (h : ∀ c ∈ l, jsWhitespace c = false) :
    jsTrim l = l := by
  unfold jsTrim
  rw [dropWhile_eq_self_of_none jsWhitespace h]
  rw [dropWhile_eq_self_of_none jsWhitespace
    (by intro c hc; exact h c (List.mem_reverse.mp hc))]
  exact List.reverse_reverse l

theorem bslashToSlash_eq_self {l : List Char} (h : ∀ c ∈ l, ¬ c = '\\') :
    bslashToSlash l = l := by
  induction l with
  | nil => rfl
  | cons a rest ih =>
    have ha : ¬ a = '\\' := h a (List.mem_cons_self a rest)
    have hb : (a == '\\') = false := by
      simp only [beq_eq_false_iff_ne, ne_eq]; exact ha
    have htail : bslashToSlash rest = rest :=
      ih (fun c hc => h c (List.mem_cons_of_mem a hc))
    show (if a == '\\' then '/' else a) :: bslashToSlash rest = a :: rest
    rw [hb, htail]
    simp

/-! ## Claim C2: malformed folders are rejected -/

theorem normalizeFolder_nil_of_trim_nil {s : List Char}
    (h : (jsTrim s).isEmpty = true) : normalizeFolder s = [] := by
  unfold normalizeFolder
  rw [List.isEmpty_iff] at h
  rw [h]
  rfl

/-- C2: for every folder string whose normalized form contains `..`,
starts with a dot, contains a null byte, or contains a character outside
the class accepted by `isAllowedFolderChar`, the embedded `sanitizeFolder`
fails with the `InvalidFolder` error. -/
theorem sanitizeFolder_rejects_malformed (s : List Char)
    (h : hasDotDot (normalizeFolder s) = true ∨
         startsWithDot (normalizeFolder s) = true ∨
         (normalizeFolder s).contains '\x00' = true ∨
         (∃ c ∈ normalizeFolder s, isAllowedFolderChar c = false)) :
    sanitizeFolder s = .error SandboxError.invalidFolder := by
  have hne : (jsTrim s).isEmpty = false := by
    by_contra hcon
    have hemp : (jsTrim s).isEmpty = true := by
      cases hx : (jsTrim s).isEmpty
      · exact absurd hx hcon
      · rfl
    have hnil : normalizeFolder s = [] := normalizeFolder_nil_of_trim_nil hemp
    rcases h with h1 | h2 | h3 | h4
    · rw [hnil] at h1; exact absurd h1 (by decide)
    · rw [hnil] at h2; exact absurd h2 (by decide)
    · rw [hnil] at h3; exact absurd h3 (by decide)
    · rcases h4 with ⟨c, hc, _⟩; rw [hnil] at hc; exact absurd hc (by simp)
  unfold sanitizeFolder
  rw [hne]
  simp only [Bool.false_eq_true, if_false]
  by_cases hfirst :
      (hasDotDot (normalizeFolder s) || startsWithDot (normalizeFolder s) ||
        (normalizeFolder s).contains '\x00') = true
  · rw [if_pos hfirst]
  · rw [if_neg hfirst]
    have hbad : ∃ c ∈ normalizeFolder s, isAllowedFolderChar c = false := by
      rcases h with h1 | h2 | h3 | h4
      · exact absurd (by rw [h1]; simp : (hasDotDot (normalizeFolder s) ||
          startsWithDot (normalizeFolder s) ||
          (normalizeFolder s).contains '\x00') = true) hfirst
      · exact absurd (by rw [h2]; simp : (hasDotDot (normalizeFolder s) ||
          startsWithDot (normalizeFolder s) ||
          (normalizeFolder s).contains '\x00') = true) hfirst
      · exact absurd (by rw [h3]; simp : (hasDotDot (normalizeFolder s) ||
          startsWithDot (normalizeFolder s) ||
          (normalizeFolder s).contains '\x00') = true) hfirst
      · exact h4
    have hall : (normalizeFolder s).all isAllowedFolderChar = false := by
      rcases hbad with ⟨c, hc, hcf⟩
      by_contra hcon
      have h2 : (normalizeFolder s).all isAllowedFolderChar = true := by
        cases hx : (normalizeFolder s).all isAllowedFolderChar
        · exact absurd hx hcon
        · rfl
      rw [List.all_eq_true] at h2
      rw [h2 c hc] at hcf
      exact absurd hcf (by decide)
    have hreg : folderRegexTest (normalizeFolder s) = false := by
      unfold folderRegexTest
      rw [hall]
      simp
    rw [hreg]
    simp

/-- Witness for C2 at the concrete folder string "a!b": the bang is
outside the allowed class and the sandbox rejects the folder. -/
theorem sanitizeFolder_rejects_malformed_witness :
    sanitizeFolder ['a', '!', 'b'] = .error SandboxError.invalidFolder :=
  sanitizeFolder_rejects_malformed ['a', '!', 'b']
    (Or.inr (Or.inr (Or.inr (by decide))))

/-! ## Node path semantics: segments, join/resolve normalization -/

/-- Split a string on slashes, keeping empty segments, with an
accumulator for the current (reversed) segment. -/
def splitSlashAux (cur : List Char) : List Char → List (List Char)
  | [] => [cur.reverse]
  | c :: rest =>
    if c = '/' then cur.reverse :: splitSlashAux [] rest
    else splitSlashAux (c :: cur) rest

/-- Split a string on slashes, keeping empty segments. -/
def splitOnSlash (s : List Char) : List (List Char) :=
  splitSlashAux [] s

/-- Join segments back with slash separators (no leading slash). -/
def glueSegs : List (List Char) → List Char
  | [] => []
  | [s] => s
  | s :: t :: rest => s ++ '/' :: glueSegs (t :: rest)

/-- Render an absolute path from its normalized segments: a leading
slash followed by the slash-joined segments (the empty list renders as
the filesystem root "/"). -/
def renderAbs (segs : List (List Char)) : List Char :=
  '/' :: glueSegs segs

/-- Normalization core shared by Node `path.resolve`/`path.join` on an
absolute path: empty and `.` segments are dropped, `..` pops the last
kept segment (and is dropped at the root).  The accumulator holds the
kept segments in reverse order. -/
def normAbsAux (acc : List (List Char)) : List (List Char) → List (List Char)
  | [] => acc.reverse
  | s :: rest =>
    if s = [] ∨ s = ['.'] then normAbsAux acc rest
    else if s = ['.', '.'] then normAbsAux acc.tail rest
    else normAbsAux (s :: acc) rest

/-- Model of `path.resolve` on an absolute path string: split on
slashes and normalize. -/
def resolveAbs (s : List Char) : List (List Char) :=
  normAbsAux [] (splitOnSlash s)

/-- Decide whether the first string is a leading piece of the second
(character-wise), the semantics of JavaScript `startsWith`. -/
def strStarts : List Char → List Char → Bool
  | [], _ => true
  | _ :: _, [] => false
  | p :: ps, s :: ss => p == s && strStarts ps ss

/-- Decide whether the first segment list is a leading piece of the
second, i.e. the segment-aware ancestor-or-equal relation on
normalized paths. -/
def segsLe : List (List Char) → List (List Char) → Bool
  | [], _ => true
  | _ :: _, [] => false
  | a :: as, b :: bs => a == b && segsLe as bs

/-- Embedding of `ensureInsideBase`: resolve both directories and
require the target to start with the base plus a separator, or to equal
the base exactly. -/
def ensureInsideBase (baseDir targetDir : List Char) : Bool :=
  let resolvedBase := renderAbs (resolveAbs baseDir)
  let resolvedTarget := renderAbs (resolveAbs targetDir)
  strStarts (resolvedBase ++ ['/']) resolvedTarget || resolvedTarget == resolvedBase

/-- Composition of the upload route's path handling: sanitize the
client folder, join root/tenant/folder as `path.join` does, and check
the result with `ensureInsideBase` before accepting it as the output
directory. -/
def pathSandbox (root tenant folderInput : List Char) :
    Except SandboxError (List Char) :=
  match sanitizeFolder folderInput with
  | .error _ => .error .invalidFolder
  | .ok folder =>
    let outDir := renderAbs (resolveAbs (root ++ '/' :: tenant ++ '/' :: folder))
    if ensureInsideBase root outDir then .ok outDir
    else .error .invalidPath

/-! ## Lemmas about splitting and joining path segments -/

theorem splitSlashAux_cons (cur : List Char) (c : Char) (rest : List Char) :
    splitSlashAux cur (c :: rest) =
      if c = '/' then cur.reverse :: splitSlashAux [] rest
      else splitSlashAux (c :: cur) rest := rfl

theorem splitSlashAux_ne_nil (cur : List Char) (x : List Char) :
    splitSlashAux cur x ≠ [] := by
  induction x generalizing cur with
  | nil => simp [splitSlashAux]
  | cons c rest ih =>
    rw [splitSlashAux_cons]
    by_cases hc : c = '/'
    · rw [if_pos hc]; simp
    · rw [if_neg hc]; exact ih (c :: cur)

theorem glueSegs_cons {s : List Char} {rest : List (List Char)}
    (h : rest ≠ []) : glueSegs (s :: rest) = s ++ '/' :: glueSegs rest := by
  cases rest with
  | nil => exact absurd rfl h
  | cons t r => rfl

theorem splitSlashAux_no_slash (cur : List Char) {s : List Char}
    (h : ∀ c ∈ s, ¬ c = '/') : splitSlashAux cur s = [cur.reverse ++ s] := by
  induction s generalizing cur with
  | nil => simp [splitSlashAux]
  | cons c rest ih =>
    have hc : ¬ c = '/' := h c (List.mem_cons_self c rest)
    rw [splitSlashAux_cons, if_neg hc]
    rw [ih (c :: cur) (fun d hd => h d (List.mem_cons_of_mem c hd))]
    simp

theorem splitSlashAux_seg_slash (cur : List Char) {s : List Char}
    (t : List Char) (h : ∀ c ∈ s, ¬ c = '/') :
    splitSlashAux cur (s ++ '/' :: t) =
      (cur.reverse ++ s) :: splitSlashAux [] t := by
  induction s generalizing cur with
  | nil => simp [splitSlashAux]
  | cons c rest ih =>
    have hc : ¬ c = '/' := h c (List.mem_cons_self c rest)
    show splitSlashAux cur (c :: (rest ++ '/' :: t)) = _
    rw [splitSlashAux_cons, if_neg hc]
    rw [ih (c :: cur) (fun d hd => h d (List.mem_cons_of_mem c hd))]
    simp only [List.reverse_cons, List.append_assoc, List.cons_append,
      List.nil_append]

theorem splitSlashAux_append_last (cur : List Char) (x : List Char)
    {t : List Char} (h : ∀ c ∈ t, ¬ c = '/') :
    splitSlashAux cur (x ++ '/' :: t) = splitSlashAux cur x ++ [t] := by
  induction x generalizing cur with
  | nil =>
    show splitSlashAux cur ('/' :: t) = [cur.reverse] ++ [t]
    rw [splitSlashAux_cons, if_pos rfl]
    rw [splitSlashAux_no_slash [] h]
    simp
  | cons c rest ih =>
    show splitSlashAux cur (c :: (rest ++ '/' :: t)) =
      splitSlashAux cur (c :: rest) ++ [t]
    rw [splitSlashAux_cons, splitSlashAux_cons]
    by_cases hc : c = '/'
    · rw [if_pos hc, if_pos hc]
      rw [ih []]
      simp
    · rw [if_neg hc, if_neg hc]
      exact ih (c :: cur)

theorem glueSegs_splitSlashAux (cur : List Char) (x : List Char) :
    glueSegs (splitSlashAux cur x) = cur.reverse ++ x := by
  induction x generalizing cur with
  | nil => simp [splitSlashAux, glueSegs]
  | cons c rest ih =>
    rw [splitSlashAux_cons]
    by_cases hc : c = '/'
    · rw [if_pos hc]
      rw [glueSegs_cons (splitSlashAux_ne_nil [] rest)]
      rw [ih []]
      simp [hc]
    · rw [if_neg hc]
      rw [ih (c :: cur)]
      simp

theorem glueSegs_splitOnSlash (x : List Char) :
    glueSegs (splitOnSlash x) = x := by
  unfold splitOnSlash
  rw [glueSegs_splitSlashAux]
  rfl

theorem splitOnSlash_glueSegs {segs : List (List Char)} (hne : segs ≠ [])
    (h : ∀ s ∈ segs, ∀ c ∈ s, ¬ c = '/') :
    splitOnSlash (glueSegs segs) = segs := by
  induction segs with
  | nil => exact absurd rfl hne
  | cons s rest ih =>
    cases rest with
    | nil =>
      unfold splitOnSlash
      rw [show glueSegs [s] = s from rfl]
      rw [splitSlashAux_no_slash [] (h s (List.mem_cons_self s []))]
      rfl
    | cons t r =>
      unfold splitOnSlash
      rw [glueSegs_cons (by simp : (t :: r : List (List Char)) ≠ [])]
      rw [splitSlashAux_seg_slash [] (glueSegs (t :: r))
        (h s (List.mem_cons_self s (t :: r)))]
      have ihr := ih (by simp)
        (fun u hu c hc => h u (List.mem_cons_of_mem s hu) c hc)
      unfold splitOnSlash at ihr
      rw [ihr]
      simp

theorem splitSlashAux_glue_tail {segs : List (List Char)} (hne : segs ≠ [])
    (h : ∀ s ∈ segs, ∀ c ∈ s, ¬ c = '/') (z : List Char) :
    splitSlashAux [] (glueSegs segs ++ '/' :: z) =
      segs ++ splitSlashAux [] z := by
  induction segs with
  | nil => exact absurd rfl hne
  | cons s rest ih =>
    cases rest with
    | nil =>
      rw [show glueSegs [s] = s from rfl]
      rw [splitSlashAux_seg_slash [] z (h s (List.mem_cons_self s []))]
      simp
    | cons t r =>
      rw [glueSegs_cons (by simp : (t :: r : List (List Char)) ≠ [])]
      rw [List.append_assoc, List.cons_append]
      rw [splitSlashAux_seg_slash [] (glueSegs (t :: r) ++ '/' :: z)
        (h s (List.mem_cons_self s (t :: r)))]
      rw [ih (by simp) (fun u hu c hc => h u (List.mem_cons_of_mem s hu) c hc)]
      simp

/-! ## Normalization lemmas -/

theorem normAbsAux_cons (acc : List (List Char)) (s : List Char)
    (rest : List (List Char)) :
    normAbsAux acc (s :: rest) =
      if s = [] ∨ s = ['.'] then normAbsAux acc rest
      else if s = ['.', '.'] then normAbsAux acc.tail rest
      else normAbsAux (s :: acc) rest := rfl

theorem normAbsAux_dot_free (acc : List (List Char)) {l : List (List Char)}
    (h : ∀ s ∈ l, ∀ c ∈ s, ¬ c = '.') :
    normAbsAux acc l = acc.reverse ++ l.filter (fun s => !s.isEmpty) := by
  induction l generalizing acc with
  | nil => simp [normAbsAux]
  | cons s rest ih =>
    have hs : ∀ c ∈ s, ¬ c = '.' := h s (List.mem_cons_self s rest)
    have hrest : ∀ u ∈ rest, ∀ c ∈ u, ¬ c = '.' :=
      fun u hu c hc => h u (List.mem_cons_of_mem s hu) c hc
    rw [normAbsAux_cons]
    by_cases hnil : s = []
    · rw [if_pos (Or.inl hnil), ih acc hrest]
      subst hnil
      simp [List.filter]
    · have hdot : ¬ s = ['.'] := by
        intro hcon
        exact hs '.' (by rw [hcon]; simp) rfl
      have hdd : ¬ s = ['.', '.'] := by
        intro hcon
        exact hs '.' (by rw [hcon]; simp) rfl
      rw [if_neg (fun hcon => Or.elim hcon hnil hdot)]
      rw [if_neg hdd, ih (s :: acc) hrest]
      have hkeep : s.isEmpty = false := by
        cases s with
        | nil => exact absurd rfl hnil
        | cons a r => rfl
      simp [List.filter, hkeep]

theorem filter_nonempty_id {l : List (List Char)} (h : ∀ s ∈ l, ¬ s = []) :
    l.filter (fun s => !s.isEmpty) = l := by
  induction l with
  | nil => rfl
  | cons s rest ih =>
    have hs : s.isEmpty = false := by
      cases s with
      | nil => exact absurd rfl (h [] (List.mem_cons_self [] rest))
      | cons a r => rfl
    simp [List.filter, hs, ih (fun u hu => h u (List.mem_cons_of_mem s hu))]

/-- Round trip: resolving the rendered form of normalized segments
(each non-empty, slash-free and dot-free) gives back the segments. -/
theorem resolveAbs_renderAbs {segs : List (List Char)}
    (hslash : ∀ s ∈ segs, ∀ c ∈ s, ¬ c = '/')
    (hdot : ∀ s ∈ segs, ∀ c ∈ s, ¬ c = '.')
    (hne : ∀ s ∈ segs, ¬ s = []) :
    resolveAbs (renderAbs segs) = segs := by
  unfold resolveAbs renderAbs splitOnSlash
  rw [splitSlashAux_cons, if_pos rfl]
  simp only [List.reverse_nil]
  cases hcase : segs with
  | nil =>
    show normAbsAux [] ([] :: splitSlashAux [] []) = []
    simp [splitSlashAux, normAbsAux]
  | cons s rest =>
    subst hcase
    have hsplit : splitSlashAux [] (glueSegs (s :: rest)) = s :: rest := by
      have := splitOnSlash_glueSegs (by simp : (s :: rest : List (List Char)) ≠ [])
        hslash
      unfold splitOnSlash at this
      exact this
    rw [hsplit]
    rw [normAbsAux_cons]
    rw [if_pos (Or.inl rfl)]
    rw [normAbsAux_dot_free [] hdot]
    rw [filter_nonempty_id hne]
    rfl

/-! ## strStarts and segsLe lemmas -/

theorem strStarts_append (p t : List Char) : strStarts p (p ++ t) = true := by
  induction p with
  | nil => rfl
  | cons c rest ih =>
    show (c == c && strStarts rest (rest ++ t)) = true
    rw [ih]
    simp

theorem segsLe_append (a t : List (List Char)) : segsLe a (a ++ t) = true := by
  induction a with
  | nil => rfl
  | cons s rest ih =>
    show (s == s && segsLe rest (rest ++ t)) = true
    rw [ih]
    simp

/-! ## Facts about the allowed folder characters -/

theorem allowed_not_ws {c : Char} (h : isAllowedFolderChar c = true) :
    jsWhitespace c = false := by
  by_contra hcon
  have hw : jsWhitespace c = true := by
    cases hx : jsWhitespace c
    · exact absurd hx hcon
    · rfl
  unfold jsWhitespace at hw
  simp only [Bool.or_eq_true, beq_iff_eq] at hw
  rcases hw with ((((((hc | hc) | hc) | hc) | hc) | hc) | hc) | hc <;>
    (subst hc; exact absurd h (by decide))

theorem allowed_not_bslash {c : Char} (h : isAllowedFolderChar c = true) :
    ¬ c = '\\' := by
  intro hc
  subst hc
  exact absurd h (by decide)

theorem allowed_not_dot {c : Char} (h : isAllowedFolderChar c = true) :
    ¬ c = '.' := by
  intro hc
  subst hc
  exact absurd h (by decide)

theorem allowed_not_null {c : Char} (h : isAllowedFolderChar c = true) :
    ¬ c = '\x00' := by
  intro hc
  subst hc
  exact absurd h (by decide)

theorem hasDotDot_eq_false {s : List Char} (h : ∀ c ∈ s, ¬ c = '.') :
    hasDotDot s = false := by
  induction s with
  | nil => rfl
  | cons a rest ih =>
    cases rest with
    | nil => rfl
    | cons b r =>
      show ((a == '.' && b == '.') || hasDotDot (b :: r)) = false
      have ha : (a == '.') = false := by
        simp only [beq_eq_false_iff_ne, ne_eq]
        exact h a (List.mem_cons_self a (b :: r))
      rw [ha, ih (fun c hc => h c (List.mem_cons_of_mem a hc))]
      simp

theorem startsWithDot_eq_false {s : List Char} (h : ∀ c ∈ s, ¬ c = '.') :
    startsWithDot s = false := by
  cases s with
  | nil => rfl
  | cons a rest =>
    show (a == '.') = false
    simp only [beq_eq_false_iff_ne, ne_eq]
    exact h a (List.mem_cons_self a rest)

theorem contains_null_eq_false {s : List Char}
    (h : ∀ c ∈ s, isAllowedFolderChar c = true) :
    s.contains '\x00' = false := by
  by_contra hcon
  have hc : s.contains '\x00' = true := by
    cases hx : s.contains '\x00'
    · exact absurd hx hcon
    · rfl
  have hmem : '\x00' ∈ s := by simpa using hc
  exact allowed_not_null (h '\x00' hmem) rfl

/-- Sanitization succeeds on a folder made only of allowed characters,
provided the folder is empty or has at least one non-slash character;
the result is the folder with leading and trailing slashes trimmed. -/
theorem sanitizeFolder_ok_of_allowed {folder : List Char}
    (hall : ∀ c ∈ folder, isAllowedFolderChar c = true)
    (hslashes : folder = [] ∨ ∃ c ∈ folder, ¬ c = '/') :
    sanitizeFolder folder = .ok (trimSlashes folder) := by
  have htrim : jsTrim folder = folder :=
    jsTrim_eq_self (fun c hc => allowed_not_ws (hall c hc))
  rcases hslashes with hnil | ⟨c0, hc0mem, hc0⟩
  · subst hnil
    rfl
  · have hfne : ¬ folder = [] := by
      intro hcon
      rw [hcon] at hc0mem
      exact absurd hc0mem (by simp)
    have hne : (jsTrim folder).isEmpty = false := by
      rw [htrim]
      cases hcase : folder with
      | nil => exact absurd hcase hfne
      | cons a r => rfl
    have hnorm : normalizeFolder folder = trimSlashes folder := by
      unfold normalizeFolder
      rw [htrim, bslashToSlash_eq_self (fun c hc => allowed_not_bslash (hall c hc))]
    have hclall : ∀ c ∈ trimSlashes folder, isAllowedFolderChar c = true :=
      fun c hc => hall c (mem_of_mem_trimSlashes hc)
    have hclne : ¬ trimSlashes folder = [] := by
      intro hcon
      have := mem_trimSlashes_of_mem hc0mem hc0
      rw [hcon] at this
      exact absurd this (by simp)
    unfold sanitizeFolder
    rw [hne]
    simp only [Bool.false_eq_true, if_false]
    rw [hnorm]
    rw [hasDotDot_eq_false (fun c hc => allowed_not_dot (hclall c hc))]
    rw [startsWithDot_eq_false (fun c hc => allowed_not_dot (hclall c hc))]
    rw [contains_null_eq_false hclall]
    simp only [Bool.or_self, Bool.or_false, Bool.false_eq_true, if_false]
    have hreg : folderRegexTest (trimSlashes folder) = true := by
      unfold folderRegexTest
      have hie : (trimSlashes folder).isEmpty = false := by
        cases hcase : trimSlashes folder with
        | nil => exact absurd hcase hclne
        | cons a r => rfl
      rw [hie]
      rw [List.all_eq_true.mpr hclall]
      rfl
    rw [hreg]
    rfl

/-! ## Membership facts for split segments, glue append -/

theorem mem_of_mem_splitSlashAux {c : Char} :
    ∀ (cur x : List Char) (u : List Char),
      u ∈ splitSlashAux cur x → c ∈ u → c ∈ cur ∨ c ∈ x := by
  intro cur x
  induction x generalizing cur with
  | nil =>
    intro u hu hc
    have : u = cur.reverse := by simpa [splitSlashAux] using hu
    subst this
    exact Or.inl (List.mem_reverse.mp hc)
  | cons d rest ih =>
    intro u hu hc
    rw [splitSlashAux_cons] at hu
    by_cases hd : d = '/'
    · rw [if_pos hd] at hu
      rcases List.mem_cons.mp hu with h1 | h2
      · subst h1
        exact Or.inl (List.mem_reverse.mp hc)
      · rcases ih [] u h2 hc with h3 | h4
        · exact absurd h3 (by simp)
        · exact Or.inr (List.mem_cons_of_mem d h4)
    · rw [if_neg hd] at hu
      rcases ih (d :: cur) u hu hc with h3 | h4
      · rcases List.mem_cons.mp h3 with h5 | h6
        · exact Or.inr (by rw [h5]; exact List.mem_cons_self d rest)
        · exact Or.inl h6
      · exact Or.inr (List.mem_cons_of_mem d h4)

theorem splitSlashAux_no_slash_mem {c : Char} :
    ∀ (cur x : List Char) (u : List Char),
      (∀ d ∈ cur, ¬ d = '/') → u ∈ splitSlashAux cur x → c ∈ u → ¬ c = '/' := by
  intro cur x
  induction x generalizing cur with
  | nil =>
    intro u hcur hu hc
    have : u = cur.reverse := by simpa [splitSlashAux] using hu
    subst this
    exact hcur c (List.mem_reverse.mp hc)
  | cons d rest ih =>
    intro u hcur hu hc
    rw [splitSlashAux_cons] at hu
    by_cases hd : d = '/'
    · rw [if_pos hd] at hu
      rcases List.mem_cons.mp hu with h1 | h2
      · subst h1
        exact hcur c (List.mem_reverse.mp hc)
      · exact ih [] u (by simp) h2 hc
    · rw [if_neg hd] at hu
      refine ih (d :: cur) u ?_ hu hc
      intro e he
      rcases List.mem_cons.mp he with h5 | h6
      · rw [h5]; exact hd
      · exact hcur e h6

theorem glueSegs_append {a b : List (List Char)} (ha : ¬ a = [])
    (hb : ¬ b = []) :
    glueSegs (a ++ b) = glueSegs a ++ '/' :: glueSegs b := by
  induction a with
  | nil => exact absurd rfl ha
  | cons s rest ih =>
    cases rest with
    | nil =>
      show glueSegs (s :: b) = glueSegs [s] ++ '/' :: glueSegs b
      rw [glueSegs_cons hb]
      rfl
    | cons t r =>
      show glueSegs (s :: ((t :: r) ++ b)) = _
      rw [glueSegs_cons (by simp : ¬ ((t :: r) ++ b : List (List Char)) = [])]
      rw [ih (by simp)]
      rw [glueSegs_cons (by simp : ¬ (t :: r : List (List Char)) = [])]
      simp

/-- Resolution of the joined path root/tenant/folder: with a normal-form
root and a clean tenant segment, the resolved segment list is the root
segments, then the tenant, then the non-empty folder segments. -/
theorem resolveAbs_join {rsegs : List (List Char)} {tenant cleaned : List Char}
    (hrne : ¬ rsegs = [])
    (hrseg : ∀ s ∈ rsegs, (¬ s = []) ∧ (∀ c ∈ s, ¬ c = '/') ∧ (∀ c ∈ s, ¬ c = '.'))
    (htne : ¬ tenant = []) (hts : ∀ c ∈ tenant, ¬ c = '/')
    (htd : ∀ c ∈ tenant, ¬ c = '.')
    (hcd : ∀ c ∈ cleaned, ¬ c = '.') :
    resolveAbs (renderAbs rsegs ++ '/' :: tenant ++ '/' :: cleaned) =
      rsegs ++ tenant ::
        (splitOnSlash cleaned).filter (fun s => !s.isEmpty) := by
  have hstr : renderAbs rsegs ++ '/' :: tenant ++ '/' :: cleaned =
      '/' :: (glueSegs rsegs ++ '/' :: (tenant ++ '/' :: cleaned)) := by
    unfold renderAbs
    simp
  unfold resolveAbs splitOnSlash
  rw [hstr]
  rw [splitSlashAux_cons, if_pos rfl]
  rw [splitSlashAux_glue_tail hrne (fun s hs => (hrseg s hs).2.1)]
  rw [splitSlashAux_seg_slash [] cleaned hts]
  simp only [List.reverse_nil, List.nil_append]
  rw [normAbsAux_cons, if_pos (Or.inl rfl)]
  have hdotall : ∀ s ∈ rsegs ++ tenant :: splitSlashAux [] cleaned,
      ∀ c ∈ s, ¬ c = '.' := by
    intro s hs
    rcases List.mem_append.mp hs with h1 | h2
    · exact (hrseg s h1).2.2
    · rcases List.mem_cons.mp h2 with h3 | h4
      · intro c hc
        rw [h3] at hc
        exact htd c hc
      · intro c hc
        rcases mem_of_mem_splitSlashAux [] cleaned s h4 hc with h5 | h6
        · exact absurd h5 (by simp)
        · exact hcd c h6
  rw [normAbsAux_dot_free [] hdotall]
  rw [List.filter_append]
  rw [filter_nonempty_id (fun s hs => (hrseg s hs).1)]
  have hti : tenant.isEmpty = false := by
    cases hcase : tenant with
    | nil => exact absurd hcase htne
    | cons a r => rfl
  simp [List.filter, hti, splitOnSlash]

theorem strStarts_append_cons (p : List Char) (c : Char) (t : List Char) :
    strStarts (p ++ [c]) (p ++ c :: t) = true := by
  have h : p ++ c :: t = (p ++ [c]) ++ t := by simp
  rw [h]
  exact strStarts_append (p ++ [c]) t

/-! ## Claim C3: sandboxed folders resolve under the tenant root -/

/-- Counterexample to C3 as stated: the folder string "/" is composed
only of allowed characters and contains no traversal sequence, yet the
sandbox rejects it, because after trimming slashes the cleaned string is
empty and the character-class regex requires at least one character. -/
theorem pathSandbox_slash_counterexample :
    (∀ c ∈ ['/'], isAllowedFolderChar c = true) ∧
    hasDotDot ['/'] = false ∧
    pathSandbox (renderAbs [['d', 'a', 't', 'a'], ['i', 'm', 'g']])
      ['t', '1'] ['/'] = .error SandboxError.invalidFolder := by
  refine ⟨by decide, rfl, ?_⟩
  rfl

/-- C3 (amended): for every folder string composed only of the allowed
characters and not consisting solely of slashes (the empty folder is
fine), the sandbox succeeds, and the resolved output directory is equal
to or a segment-aware strict descendant of the tenant root
root/tenant.  The root is any normal-form absolute directory and the
tenant any clean path segment. -/
theorem pathSandbox_descends (rsegs : List (List Char)) (tenant folder : List Char)
    (hroot : (¬ rsegs = []) ∧
      ∀ s ∈ rsegs, (¬ s = []) ∧ (∀ c ∈ s, ¬ c = '/') ∧ (∀ c ∈ s, ¬ c = '.'))
    (htenant : (¬ tenant = []) ∧ (∀ c ∈ tenant, ¬ c = '/') ∧
      (∀ c ∈ tenant, ¬ c = '.'))
    (hfolder : ∀ c ∈ folder, isAllowedFolderChar c = true)
    (hslashes : folder = [] ∨ ∃ c ∈ folder, ¬ c = '/') :
    ∃ fsegs,
      pathSandbox (renderAbs rsegs) tenant folder =
        .ok (renderAbs (rsegs ++ tenant :: fsegs)) ∧
      segsLe (rsegs ++ [tenant]) (rsegs ++ tenant :: fsegs) = true := by
  obtain ⟨hrne, hrseg⟩ := hroot
  obtain ⟨htne, hts, htd⟩ := htenant
  have hsan : sanitizeFolder folder = .ok (trimSlashes folder) :=
    sanitizeFolder_ok_of_allowed hfolder hslashes
  have hcall : ∀ c ∈ trimSlashes folder, isAllowedFolderChar c = true :=
    fun c hc => hfolder c (mem_of_mem_trimSlashes hc)
  have hcd : ∀ c ∈ trimSlashes folder, ¬ c = '.' :=
    fun c hc => allowed_not_dot (hcall c hc)
  have hres : resolveAbs (renderAbs rsegs ++ '/' :: tenant ++ '/' ::
      trimSlashes folder) =
      rsegs ++ tenant ::
        (splitOnSlash (trimSlashes folder)).filter (fun s => !s.isEmpty) :=
    resolveAbs_join hrne hrseg htne hts htd hcd
  refine ⟨(splitOnSlash (trimSlashes folder)).filter (fun s => !s.isEmpty),
    ?_, ?_⟩
  · have hfsegprops : ∀ s ∈ rsegs ++ tenant ::
        (splitOnSlash (trimSlashes folder)).filter (fun s => !s.isEmpty),
        (¬ s = []) ∧ (∀ c ∈ s, ¬ c = '/') ∧ (∀ c ∈ s, ¬ c = '.') := by
      intro s hs
      rcases List.mem_append.mp hs with h1 | h2
      · exact hrseg s h1
      · rcases List.mem_cons.mp h2 with h3 | h4
        · subst h3
          exact ⟨htne, hts, htd⟩
        · have hmem : s ∈ splitOnSlash (trimSlashes folder) :=
            (List.mem_filter.mp h4).1
          have hkeep : (!s.isEmpty) = true :=
            (List.mem_filter.mp h4).2
          refine ⟨?_, ?_, ?_⟩
          · intro hcon
            subst hcon
            exact absurd hkeep (by decide)
          · intro c hc
            exact splitSlashAux_no_slash_mem [] (trimSlashes folder) s
              (by simp) hmem hc
          · intro c hc
            rcases mem_of_mem_splitSlashAux [] (trimSlashes folder) s hmem hc
              with h5 | h6
            · exact absurd h5 (by simp)
            · exact hcd c h6
    have hins : ensureInsideBase (renderAbs rsegs)
        (renderAbs (rsegs ++ tenant ::
          (splitOnSlash (trimSlashes folder)).filter
            (fun s => !s.isEmpty))) = true := by
      unfold ensureInsideBase
      rw [resolveAbs_renderAbs (fun s hs => (hrseg s hs).2.1)
        (fun s hs => (hrseg s hs).2.2) (fun s hs => (hrseg s hs).1)]
      rw [resolveAbs_renderAbs (fun s hs => (hfsegprops s hs).2.1)
        (fun s hs => (hfsegprops s hs).2.2) (fun s hs => (hfsegprops s hs).1)]
      have hrender : renderAbs (rsegs ++ tenant ::
          (splitOnSlash (trimSlashes folder)).filter (fun s => !s.isEmpty)) =
          (renderAbs rsegs ++ ['/']) ++
            glueSegs (tenant ::
              (splitOnSlash (trimSlashes folder)).filter
                (fun s => !s.isEmpty)) := by
        unfold renderAbs
        rw [glueSegs_append hrne (by simp)]
        simp
      rw [hrender]
      simp [strStarts_append_cons]
    unfold pathSandbox
    rw [hsan]
    simp only [hres, hins]
    simp
  · rw [show rsegs ++ tenant ::
        (splitOnSlash (trimSlashes folder)).filter (fun s => !s.isEmpty) =
        (rsegs ++ [tenant]) ++
          (splitOnSlash (trimSlashes folder)).filter (fun s => !s.isEmpty)
      by simp]
    exact segsLe_append (rsegs ++ [tenant]) _

/-- Witness for C3 at a concrete deployment: root "/data/img", tenant
"t1", folder "gallery/a_b"; the sandbox accepts and resolves under the
tenant root. -/
theorem pathSandbox_descends_witness :
    ∃ fsegs,
      pathSandbox (renderAbs [['d', 'a', 't', 'a'], ['i', 'm', 'g']])
          ['t', '1'] ['g', 'a', 'l', '/', 'a', '_', 'b'] =
        .ok (renderAbs ([['d', 'a', 't', 'a'], ['i', 'm', 'g']] ++
          ['t', '1'] :: fsegs)) ∧
      segsLe ([['d', 'a', 't', 'a'], ['i', 'm', 'g']] ++ [['t', '1']])
        ([['d', 'a', 't', 'a'], ['i', 'm', 'g']] ++ ['t', '1'] :: fsegs) =
        true :=
  pathSandbox_descends [['d', 'a', 't', 'a'], ['i', 'm', 'g']] ['t', '1']
    ['g', 'a', 'l', '/', 'a', '_', 'b']
    (by refine ⟨by simp, ?_⟩; decide)
    (by refine ⟨by simp, ?_, ?_⟩ <;> decide)
    (by decide)
    (Or.inr ⟨'g', by decide, by decide⟩)

/-! ## Orientation and Size Planner (heuristic variant) -/

/-- Size profiles from the environment-configured bounding boxes: one
pair for landscape output, one for portrait output. -/
structure SizeConfig where
  landscapeMaxW : Nat
  landscapeMaxH : Nat
  portraitMaxW : Nat
  portraitMaxH : Nat
deriving DecidableEq, Repr

/-- Default configuration values of the heuristic variant. -/
def defaultSizeConfig : SizeConfig :=
  { landscapeMaxW := 2400, landscapeMaxH := 1600,
    portraitMaxW := 1600, portraitMaxH := 3200 }

/-- The transcode plan computed per upload: whether to bake the EXIF
rotation into pixels, the display classification, the chosen bounding
box, and the unconditional reset of the orientation tag on output. -/
structure TranscodePlan where
  bakeRotation : Bool
  isPortrait : Bool
  targetMaxWidth : Nat
  targetMaxHeight : Nat
  resetTag : Bool
deriving DecidableEq, Repr

/-- Embedding of `isSwapOrientation`: tags 5 to 8 swap dimensions. -/
def isSwapOrientation (o : Nat) : Bool :=
  o == 5 || o == 6 || o == 7 || o == 8

/-- Embedding of the decision core of the heuristic `buildSharpBase`,
as a pure function of orientation tag, raw pixel width and raw pixel
height (the values after the `?? 1` defaulting). -/
def planFromOWH (cfg : SizeConfig) (o w h : Nat) : TranscodePlan :=
  let swap := isSwapOrientation o
  let shouldRotate :=
    (!(o == 1)) && ((swap && decide (w > h)) ||
      (!swap && (o == 3 || o == 4)))
  let isPortraitAfter :=
    if swap then (if shouldRotate then true else decide (h > w))
    else decide (h > w)
  { bakeRotation := shouldRotate
    isPortrait := isPortraitAfter
    targetMaxWidth := if isPortraitAfter then cfg.portraitMaxW
      else cfg.landscapeMaxW
    targetMaxHeight := if isPortraitAfter then cfg.portraitMaxH
      else cfg.landscapeMaxH
    resetTag := true }

/-- Metadata as reported by the codec collaborator: each field may be
absent, in which case the source substitutes a default. -/
structure ImageMeta where
  orientation : Option Nat
  width : Option Nat
  height : Option Nat
deriving DecidableEq, Repr

/-- Failure of the metadata read (corrupt or unsupported input). -/
inductive DecodeError where
  | decodeFailed
deriving DecidableEq, Repr

/-- Embedding of `buildSharpBase` of the heuristic variant over the
outcome of the metadata read: a failed read propagates; a successful
read is planned with `?? 1` defaulting of every missing field. -/
def buildSharpBase (cfg : SizeConfig) (m : Except DecodeError ImageMeta) :
    Except DecodeError TranscodePlan :=
  match m with
  | .error e => .error e
  | .ok meta =>
    .ok (planFromOWH cfg (meta.orientation.getD 1) (meta.width.getD 1)
      (meta.height.getD 1))

/-! ## Claim C1: swap-family tags bake only on landscape pixels -/

/-- C1: for every orientation tag in the set 5 to 8 the planner bakes
the rotation exactly when the raw width strictly exceeds the raw
height; a planned bake classifies the display as portrait, and with no
bake the classification is portrait exactly when raw height exceeds
raw width. -/
theorem plan_swap_family (cfg : SizeConfig) (o w h : Nat)
    (ho : o = 5 ∨ o = 6 ∨ o = 7 ∨ o = 8) :
    ((planFromOWH cfg o w h).bakeRotation = true ↔ w > h) ∧
    ((planFromOWH cfg o w h).bakeRotation = true →
      (planFromOWH cfg o w h).isPortrait = true) ∧
    ((planFromOWH cfg o w h).bakeRotation = false →
      ((planFromOWH cfg o w h).isPortrait = true ↔ h > w)) := by
  have hswap : isSwapOrientation o = true := by
    rcases ho with h1 | h2 | h3 | h4 <;>
      (first
        | (subst h1; rfl) | (subst h2; rfl) | (subst h3; rfl)
        | (subst h4; rfl))
  have hne1 : (o == 1) = false := by
    rcases ho with h1 | h2 | h3 | h4 <;>
      (first
        | (subst h1; rfl) | (subst h2; rfl) | (subst h3; rfl)
        | (subst h4; rfl))
  unfold planFromOWH
  rw [hswap, hne1]
  simp only [Bool.not_false, Bool.true_and, Bool.not_true, Bool.false_and,
    Bool.or_false, Bool.true_and]
  constructor
  · constructor
    · intro hb
      simpa using hb
    · intro hw
      simp [hw]
  · constructor
    · intro hb
      simp only [hb]
      simp at hb
      simp [hb]
    · intro hb
      simp only [hb]
      simp at hb
      simp [hb]

/-- Witness for C1: the two concrete instances named by the
specification, tag 6 with 800x600 pixels (bake, portrait) and tag 6
with 600x800 pixels (no bake, portrait because raw height exceeds raw
width). -/
theorem plan_swap_family_witness :
    ((planFromOWH defaultSizeConfig 6 800 600).bakeRotation = true ∧
      (planFromOWH defaultSizeConfig 6 800 600).isPortrait = true) ∧
    ((planFromOWH defaultSizeConfig 6 600 800).bakeRotation = false ∧
      (planFromOWH defaultSizeConfig 6 600 800).isPortrait = true) := by
  have h1 := plan_swap_family defaultSizeConfig 6 800 600
    (Or.inr (Or.inl rfl))
  have h2 := plan_swap_family defaultSizeConfig 6 600 800
    (Or.inr (Or.inl rfl))
  refine ⟨⟨h1.1.mpr (by decide), h1.2.1 (h1.1.mpr (by decide))⟩, ?_, ?_⟩
  · have hb : (planFromOWH defaultSizeConfig 6 600 800).bakeRotation = false := by
      decide
    exact hb
  · have hb : (planFromOWH defaultSizeConfig 6 600 800).bakeRotation = false := by
      decide
    exact (h2.2.2 hb).mpr (by decide)

/-! ## Claim C6: 180-family tags always bake, tag 1 never bakes -/

/-- C6: with orientation tag 3 or 4 the planner always bakes the
rotation, with tag 1 it never does, and in all three cases the display
classification is portrait exactly when raw height exceeds raw width. -/
theorem plan_rot180_and_identity (cfg : SizeConfig) (o w h : Nat)
    (ho : o = 1 ∨ o = 3 ∨ o = 4) :
    ((o = 3 ∨ o = 4) → (planFromOWH cfg o w h).bakeRotation = true) ∧
    (o = 1 → (planFromOWH cfg o w h).bakeRotation = false) ∧
    ((planFromOWH cfg o w h).isPortrait = true ↔ h > w) := by
  rcases ho with h1 | h3 | h4
  · subst h1
    refine ⟨?_, ?_, ?_⟩
    · intro hcon
      rcases hcon with hc | hc <;> exact absurd hc (by decide)
    · intro _
      rfl
    · unfold planFromOWH
      simp
  · subst h3
    refine ⟨?_, ?_, ?_⟩
    · intro _
      rfl
    · intro hc
      exact absurd hc (by decide)
    · unfold planFromOWH
      rw [show isSwapOrientation 3 = false from rfl]
      simp
  · subst h4
    refine ⟨?_, ?_, ?_⟩
    · intro _
      rfl
    · intro hc
      exact absurd hc (by decide)
    · unfold planFromOWH
      rw [show isSwapOrientation 4 = false from rfl]
      simp

/-- Witness for C6 at tag 3 with 500x900 pixels: the bake is planned
and the classification is portrait. -/
theorem plan_rot180_and_identity_witness :
    (planFromOWH defaultSizeConfig 3 500 900).bakeRotation = true ∧
    (planFromOWH defaultSizeConfig 3 500 900).isPortrait = true :=
  ⟨(plan_rot180_and_identity defaultSizeConfig 3 500 900
      (Or.inr (Or.inl rfl))).1 (Or.inl rfl),
    (plan_rot180_and_identity defaultSizeConfig 3 500 900
      (Or.inr (Or.inl rfl))).2.2.mpr (by decide)⟩

/-! ## Claim C7: failed metadata reads propagate -/

/-- C7: when the metadata read fails the planner propagates the decode
failure and never produces a plan, for any size configuration.  (When
the read succeeds, the source substitutes 1 for each individually
missing dimension; a wholesale failure is never replaced by guesses.) -/
theorem buildSharpBase_propagates (cfg : SizeConfig) :
    buildSharpBase cfg (Except.error DecodeError.decodeFailed) =
      Except.error DecodeError.decodeFailed ∧
    ∀ p : TranscodePlan,
      ¬ buildSharpBase cfg (Except.error DecodeError.decodeFailed) =
        Except.ok p := by
  refine ⟨rfl, ?_⟩
  intro p hcon
  exact absurd hcon (by simp [buildSharpBase])

/-! ## Name Sanitizer -/

/-- ASCII lower-casing, the effective behavior of `toLowerCase()` on
the inputs of interest (any non-ASCII character is later erased by the
strip step, so the precise Unicode lowering cannot influence the
output shape). -/
def toLowerJs (s : List Char) : List Char :=
  s.map Char.toLower

/-- Accumulator version of `replace(/\s+/g, "-")`: every maximal run
of whitespace becomes a single hyphen.  The flag records whether the
previous character was whitespace. -/
def collapseWsAux (prevWs : Bool) : List Char → List Char
  | [] => []
  | c :: rest =>
    if jsWhitespace c then
      if prevWs then collapseWsAux true rest
      else '-' :: collapseWsAux true rest
    else c :: collapseWsAux false rest

/-- Model of `replace(/\s+/g, "-")`. -/
def collapseWs (s : List Char) : List Char :=
  collapseWsAux false s

/-- Model of `replace(/[^a-z0-9-_.]/g, "")`: keep only the safe class. -/
def stripDisallowed (s : List Char) : List Char :=
  s.filter isKeepChar

/-- Model of `replace(/\.[^.]+$/, "")`: if the string ends in a dot
followed by one or more non-dots, drop that final extension; otherwise
leave the string unchanged. -/
def stripExt (s : List Char) : List Char :=
  let run := s.reverse.takeWhile (fun c => !(c == '.'))
  if run.isEmpty then s
  else
    match s.reverse.dropWhile (fun c => !(c == '.')) with
    | _ :: tail => tail.reverse
    | [] => s

/-- Default token substituted for an empty base. -/
def defaultBase : List Char := ['i', 'm', 'a', 'g', 'e']

/-- Embedding of `makeBaseName`: lower-case, collapse whitespace to
hyphens, strip disallowed characters, strip a trailing extension, fall
back to the default token, then append a hyphen and the random hex
suffix (passed here as the parameter `id`). -/
def makeBaseName (originalName : List Char) (id : List Char) : List Char :=
  let safe := stripDisallowed (collapseWs (toLowerJs originalName))
  let base := stripExt safe
  let base2 := if base.isEmpty then defaultBase else base
  base2 ++ '-' :: id

theorem mem_of_mem_stripExt {c : Char} {s : List Char}
    (h : c ∈ stripExt s) : c ∈ s := by
  unfold stripExt at h
  by_cases hrun : (s.reverse.takeWhile (fun c => !(c == '.'))).isEmpty = true
  · rw [if_pos hrun] at h
    exact h
  · rw [if_neg hrun] at h
    cases hd : s.reverse.dropWhile (fun c => !(c == '.')) with
    | nil =>
      rw [hd] at h
      exact h
    | cons a tail =>
      rw [hd] at h
      have h1 : c ∈ tail := List.mem_reverse.mp h
      have h2 : c ∈ s.reverse.dropWhile (fun c => !(c == '.')) := by
        rw [hd]
        exact List.mem_cons_of_mem a h1
      have h3 := mem_of_mem_dropWhile (fun c => !(c == '.')) h2
      exact List.mem_reverse.mp h3

theorem mem_makeBaseName_class {nm id : List Char} {c : Char}
    (h : c ∈ makeBaseName nm id) :
    isKeepChar c = true ∨ c ∈ id := by
  unfold makeBaseName at h
  rcases List.mem_append.mp h with h1 | h2
  · left
    by_cases hemp :
        (stripExt (stripDisallowed (collapseWs (toLowerJs nm)))).isEmpty = true
    · rw [if_pos hemp] at h1
      have h1c : c = 'i' ∨ c = 'm' ∨ c = 'a' ∨ c = 'g' ∨ c = 'e' := by
        simpa [defaultBase] using h1
      rcases h1c with h | h | h | h | h <;> (subst h; decide)
    · rw [if_neg hemp] at h1
      have h3 := mem_of_mem_stripExt h1
      exact List.mem_filter.mp h3 |>.2
  · rcases List.mem_cons.mp h2 with h3 | h4
    · left
      subst h3
      decide
    · right
      exact h4

/-! ## Claim C4: sanitized names are safe filename components -/

/-- Counterexample to C4 as stated: the input name "a.." produces an
output that still contains the two-dot sequence, because the extension
regex needs at least one non-dot character after the final dot and so
does not fire on a trailing double dot. -/
theorem makeBaseName_dotdot_counterexample :
    makeBaseName ['a', '.', '.']
        ['0', '1', '2', '3', '4', '5', '6', '7', '8', '9', 'a', 'b'] =
      ['a', '.', '.', '-', '0', '1', '2', '3', '4', '5', '6', '7', '8',
        '9', 'a', 'b'] ∧
    hasDotDot (makeBaseName ['a', '.', '.']
      ['0', '1', '2', '3', '4', '5', '6', '7', '8', '9', 'a', 'b']) = true := by
  constructor
  · rfl
  · rfl

/-- C4 (amended): for every input string and every twelve-character
lower-hex suffix, the sanitized name is non-empty, matches the shape
base ++ hyphen ++ suffix with a non-empty base over the class
[a-z0-9_.-], and never contains a slash, a backslash, or a null byte.
(The two-character sequence ".." can occur inside the name, as the
counterexample shows; the full output still never equals a traversal
segment since it always contains a hyphen and twelve trailing hex
characters.) -/
theorem makeBaseName_safe (nm id : List Char)
    (hid : id.length = 12 ∧ ∀ c ∈ id, isHexLowerDigit c = true) :
    (¬ makeBaseName nm id = []) ∧
    (∃ pre suf, makeBaseName nm id = pre ++ '-' :: suf ∧ (¬ pre = []) ∧
      (∀ c ∈ pre, isKeepChar c = true) ∧ suf.length = 12 ∧
      (∀ c ∈ suf, isHexLowerDigit c = true)) ∧
    (¬ '/' ∈ makeBaseName nm id) ∧ (¬ '\\' ∈ makeBaseName nm id) ∧
    (¬ '\x00' ∈ makeBaseName nm id) := by
  obtain ⟨hlen, hhex⟩ := hid
  have hbase2ne : ¬ (if (stripExt (stripDisallowed (collapseWs
      (toLowerJs nm)))).isEmpty = true then defaultBase
      else stripExt (stripDisallowed (collapseWs (toLowerJs nm)))) = [] := by
    by_cases hemp :
        (stripExt (stripDisallowed (collapseWs (toLowerJs nm)))).isEmpty = true
    · rw [if_pos hemp]
      decide
    · rw [if_neg hemp]
      intro hcon
      rw [hcon] at hemp
      exact hemp rfl
  have hbase2keep : ∀ c ∈ (if (stripExt (stripDisallowed (collapseWs
      (toLowerJs nm)))).isEmpty = true then defaultBase
      else stripExt (stripDisallowed (collapseWs (toLowerJs nm)))),
      isKeepChar c = true := by
    intro c hc
    by_cases hemp :
        (stripExt (stripDisallowed (collapseWs (toLowerJs nm)))).isEmpty = true
    · rw [if_pos hemp] at hc
      have hcc : c = 'i' ∨ c = 'm' ∨ c = 'a' ∨ c = 'g' ∨ c = 'e' := by
        simpa [defaultBase] using hc
      rcases hcc with h | h | h | h | h <;> (subst h; decide)
    · rw [if_neg hemp] at hc
      exact List.mem_filter.mp (mem_of_mem_stripExt hc) |>.2
  refine ⟨?_, ⟨?_, ?_⟩, ?_, ?_, ?_⟩
  · intro hcon
    unfold makeBaseName at hcon
    rcases List.append_eq_nil.mp hcon with ⟨_, h2⟩
    exact absurd h2 (by simp)
  · exact (if (stripExt (stripDisallowed (collapseWs
      (toLowerJs nm)))).isEmpty = true then defaultBase
      else stripExt (stripDisallowed (collapseWs (toLowerJs nm))))
  · exact ⟨id, rfl, hbase2ne, hbase2keep, hlen, hhex⟩
  · intro hcon
    rcases mem_makeBaseName_class hcon with h1 | h2
    · exact absurd h1 (by decide)
    · exact absurd (hhex '/' h2) (by decide)
  · intro hcon
    rcases mem_makeBaseName_class hcon with h1 | h2
    · exact absurd h1 (by decide)
    · exact absurd (hhex '\\' h2) (by decide)
  · intro hcon
    rcases mem_makeBaseName_class hcon with h1 | h2
    · exact absurd h1 (by decide)
    · exact absurd (hhex '\x00' h2) (by decide)

/-- Witness for C4 at the concrete input "My Photo.JPG" with a fixed
hex suffix. -/
theorem makeBaseName_safe_witness :
    (¬ makeBaseName ['M', 'y', ' ', 'P', 'h', 'o', 't', 'o', '.', 'J',
        'P', 'G'] ['0', '1', '2', '3', '4', '5', '6', '7', '8', '9',
        'a', 'b'] = []) ∧
    (∃ pre suf, makeBaseName ['M', 'y', ' ', 'P', 'h', 'o', 't', 'o',
        '.', 'J', 'P', 'G'] ['0', '1', '2', '3', '4', '5', '6', '7',
        '8', '9', 'a', 'b'] = pre ++ '-' :: suf ∧ (¬ pre = []) ∧
      (∀ c ∈ pre, isKeepChar c = true) ∧ suf.length = 12 ∧
      (∀ c ∈ suf, isHexLowerDigit c = true)) ∧
    (¬ '/' ∈ makeBaseName ['M', 'y', ' ', 'P', 'h', 'o', 't', 'o', '.',
        'J', 'P', 'G'] ['0', '1', '2', '3', '4', '5', '6', '7', '8',
        '9', 'a', 'b']) ∧
    (¬ '\\' ∈ makeBaseName ['M', 'y', ' ', 'P', 'h', 'o', 't', 'o', '.',
        'J', 'P', 'G'] ['0', '1', '2', '3', '4', '5', '6', '7', '8',
        '9', 'a', 'b']) ∧
    (¬ '\x00' ∈ makeBaseName ['M', 'y', ' ', 'P', 'h', 'o', 't', 'o',
        '.', 'J', 'P', 'G'] ['0', '1', '2', '3', '4', '5', '6', '7',
        '8', '9', 'a', 'b']) :=
  makeBaseName_safe ['M', 'y', ' ', 'P', 'h', 'o', 't', 'o', '.', 'J',
    'P', 'G'] ['0', '1', '2', '3', '4', '5', '6', '7', '8', '9', 'a', 'b']
    ⟨rfl, by decide⟩

/-! ## Tenant Resolver -/

/-- Registry entry shapes that can appear as values of the parsed
tenant configuration: a plain string, or a record whose `tenant` field
is either a string or absent (covering records without the field and
records whose field is not a string). -/
inductive TenantEntry where
  | strv (s : List Char)
  | objv (tenant : Option (List Char))
deriving DecidableEq, Repr

/-- JavaScript truthiness of a registry entry: the empty string is
falsy, every other string is truthy, and every object is truthy. -/
def entryTruthy : TenantEntry → Bool
  | .strv s => !s.isEmpty
  | .objv _ => true

/-- Association-list lookup of an API key in the registry. -/
def lookupKey : List (List Char × TenantEntry) → List Char →
    Option TenantEntry
  | [], _ => none
  | (k2, v) :: rest, k => if k2 = k then some v else lookupKey rest k

/-- Embedding of `getTenantFromApiKey` of the persisted variant: a
missing or empty key fails, a falsy entry fails, a string entry is
returned, an object entry with a string `tenant` field returns that
field, anything else fails. -/
def getTenantFromApiKey (registry : List (List Char × TenantEntry))
    (apiKey : Option (List Char)) : Option (List Char) :=
  match apiKey with
  | none => none
  | some k =>
    if k.isEmpty then none
    else
      match lookupKey registry k with
      | none => none
      | some e =>
        if !entryTruthy e then none
        else
          match e with
          | .strv s => some s
          | .objv (some t) => some t
          | .objv none => none

/-- Resolution as the specification words it: a plain entry resolves
to itself, a record with a `tenant` field resolves to the field, and
everything else (including an absent key) fails. -/
def specTenantOf : Option TenantEntry → Option (List Char)
  | some (.strv s) => some s
  | some (.objv (some t)) => some t
  | some (.objv none) => none
  | none => none

/-! ## Claim C5: both registry shapes resolve, absent keys fail -/

/-- Counterexample to C5 as stated: a registry entry that is the plain
tenant-identifier string "" is falsy in JavaScript, so resolution
returns null instead of the entry's tenant string. -/
theorem getTenant_empty_string_counterexample :
    getTenantFromApiKey [(['k'], TenantEntry.strv [])] (some ['k']) = none ∧
    (¬ getTenantFromApiKey [(['k'], TenantEntry.strv [])] (some ['k']) =
      some []) := by
  constructor
  · rfl
  · intro hcon
    exact absurd hcon (by decide)

/-- C5 (amended): for every non-empty API key whose registry entry is
either a non-empty plain string or a record carrying a string `tenant`
field, the resolver returns exactly the tenant named by the entry, and
for every key absent from the registry it returns failure; that is,
resolution agrees with the specification reading on all entries except
the falsy plain string "". -/
theorem getTenant_resolution (registry : List (List Char × TenantEntry))
    (k : List Char) (hk : ¬ k = [])
    (hne : match lookupKey registry k with
      | some (TenantEntry.strv s) => ¬ s = []
      | _ => True) :
    getTenantFromApiKey registry (some k) = specTenantOf (lookupKey registry k) := by
  have hki : k.isEmpty = false := by
    cases hcase : k with
    | nil => exact absurd hcase hk
    | cons a r => rfl
  show (if k.isEmpty = true then none
    else match lookupKey registry k with
      | none => none
      | some e =>
        if (!entryTruthy e) = true then none
        else match e with
          | TenantEntry.strv s => some s
          | TenantEntry.objv (some t) => some t
          | TenantEntry.objv none => none) =
    specTenantOf (lookupKey registry k)
  rw [hki]
  simp only [Bool.false_eq_true, if_false]
  cases hl : lookupKey registry k with
  | none => rfl
  | some e =>
    cases e with
    | strv s =>
      rw [hl] at hne
      have hsi : s.isEmpty = false := by
        cases hcase : s with
        | nil => exact absurd hcase hne
        | cons a r => rfl
      show (if (!entryTruthy (TenantEntry.strv s)) = true then none
        else some s) = specTenantOf (some (TenantEntry.strv s))
      simp [entryTruthy, hsi, specTenantOf]
    | objv t =>
      cases t with
      | none => rfl
      | some tv => rfl

/-- Witness for C5 on a registry holding both supported shapes: the
record-shaped entry under key "kb" resolves to its tenant field. -/
theorem getTenant_resolution_witness :
    getTenantFromApiKey
        [(['k', 'a'], TenantEntry.strv ['A']),
         (['k', 'b'], TenantEntry.objv (some ['B']))] (some ['k', 'b']) =
      specTenantOf (lookupKey
        [(['k', 'a'], TenantEntry.strv ['A']),
         (['k', 'b'], TenantEntry.objv (some ['B']))] ['k', 'b']) :=
  getTenant_resolution
    [(['k', 'a'], TenantEntry.strv ['A']),
     (['k', 'b'], TenantEntry.objv (some ['B']))] ['k', 'b']
    (by decide) (by show True; trivial)

/-! ## Transcode Pipeline: per-format cloning -/

/-- Output formats of the converter. -/
inductive Fmt where
  | webp
  | avif
deriving DecidableEq, Repr

/-- The configured output order of the convert route. -/
def OUTPUTS : List Fmt := [Fmt.webp, Fmt.avif]

/-- A codec pipeline object: the shared working image together with
the output format selected on this particular pipeline (none until one
of the format methods is called). -/
structure Pipeline (Img : Type) where
  img : Img
  fmt : Option Fmt

/-- Model of `base.clone()`: a fresh pipeline carrying the same state,
so later format selection never touches the original. -/
def clonePipe {Img : Type} (p : Pipeline Img) : Pipeline Img :=
  { img := p.img, fmt := p.fmt }

/-- Model of the format-selection step of `pipeline(img, ext)`: record
the requested output format on this pipeline object. -/
def selectFmt {Img : Type} (p : Pipeline Img) (f : Fmt) : Pipeline Img :=
  { p with fmt := some f }

/-- Model of `toBuffer()`: run the encoder on the pipeline's image with
its selected format (the route always selects a format first; an
unselected pipeline yields nothing). -/
def toBufferWith {Img Buf : Type} (encode : Img → Fmt → Buf)
    (p : Pipeline Img) : Option Buf :=
  p.fmt.map (encode p.img)

/-- Embedding of the conversion loop of the convert route: for each
requested format, clone the shared base pipeline, select the format on
the clone, and encode it.  The base is never rebound, exactly as in
the source. -/
def convertLoop {Img Buf : Type} (encode : Img → Fmt → Buf)
    (base : Pipeline Img) : List Fmt → List (Fmt × Option Buf)
  | [] => []
  | f :: rest =>
    (f, toBufferWith encode (selectFmt (clonePipe base) f)) ::
      convertLoop encode base rest

/-- Retrieve the artifact recorded for a format. -/
def findFmt {Buf : Type} (f : Fmt) : List (Fmt × Option Buf) → Option (Option Buf)
  | [] => none
  | (g, b) :: rest => if g = f then some b else findFmt f rest

theorem convertLoop_find {Img Buf : Type} (encode : Img → Fmt → Buf)
    (base : Pipeline Img) (f : Fmt) :
    ∀ (l : List Fmt), f ∈ l →
      findFmt f (convertLoop encode base l) = some (some (encode base.img f)) := by
  intro l
  induction l with
  | nil => intro h; exact absurd h (by simp)
  | cons g rest ih =>
    intro h
    show findFmt f ((g, toBufferWith encode (selectFmt (clonePipe base) g)) ::
      convertLoop encode base rest) = _
    unfold findFmt
    by_cases hg : g = f
    · rw [if_pos hg]
      subst hg
      rfl
    · rw [if_neg hg]
      rcases List.mem_cons.mp h with h1 | h2
      · exact absurd h1.symm hg
      · exact ih h2

/-! ## Claim C8: format encoding is order-independent -/

/-- C8: every format requested by the route is encoded from its own
clone of the shared working image, so the artifact recorded for a
format is the pure encoding of the base image and does not depend on
the order of the format list: webp-then-avif and avif-then-webp agree
on every format. -/
theorem convert_order_irrelevant (Img Buf : Type) (encode : Img → Fmt → Buf)
    (base : Pipeline Img) (f : Fmt) (hf : f ∈ OUTPUTS) :
    findFmt f (convertLoop encode base OUTPUTS) =
      findFmt f (convertLoop encode base OUTPUTS.reverse) ∧
    findFmt f (convertLoop encode base OUTPUTS) =
      some (some (encode base.img f)) := by
  have h1 := convertLoop_find encode base f OUTPUTS hf
  have h2 := convertLoop_find encode base f OUTPUTS.reverse
    (by rw [List.mem_reverse]; exact hf)
  exact ⟨by rw [h1, h2], h1⟩

/-- Witness for C8 with a concrete encoder on natural-number images:
the webp artifact agrees across both encoding orders. -/
theorem convert_order_irrelevant_witness :
    (findFmt Fmt.webp (convertLoop
        (fun (i : Nat) (f : Fmt) => (i, f)) ⟨7, none⟩ OUTPUTS) =
      findFmt Fmt.webp (convertLoop
        (fun (i : Nat) (f : Fmt) => (i, f)) ⟨7, none⟩ OUTPUTS.reverse)) ∧
    findFmt Fmt.webp (convertLoop
        (fun (i : Nat) (f : Fmt) => (i, f)) ⟨7, none⟩ OUTPUTS) =
      some (some (7, Fmt.webp)) :=
  convert_order_irrelevant Nat (Nat × Fmt)
    (fun (i : Nat) (f : Fmt) => (i, f)) ⟨7, none⟩ Fmt.webp (by decide)

/-! ## Persisted mode: advertised URL versus written file -/

theorem normAbsAux_valid (acc : List (List Char)) {l : List (List Char)}
    (h : ∀ s ∈ l, (¬ s = []) ∧ (¬ s = ['.']) ∧ (¬ s = ['.', '.'])) :
    normAbsAux acc l = acc.reverse ++ l := by
  induction l generalizing acc with
  | nil => simp [normAbsAux]
  | cons s rest ih =>
    obtain ⟨h1, h2, h3⟩ := h s (List.mem_cons_self s rest)
    rw [normAbsAux_cons]
    rw [if_neg (fun hcon => Or.elim hcon h1 h2), if_neg h3]
    rw [ih (s :: acc) (fun u hu => h u (List.mem_cons_of_mem s hu))]
    simp

/-- The relative path component of the advertised URL, after the
public base URL: built by plain string interpolation from tenant,
folder (with its separating slash omitted when empty) and filename. -/
def urlRelPath (tenant folder name : List Char) : List Char :=
  tenant ++ (if folder.isEmpty then [] else '/' :: folder) ++ '/' :: name

/-- The relative path (under the output root) of the file written by
the upload route: the `path.join` of tenant, folder and filename,
which normalizes the joined string. -/
def fileRelPath (tenant folder name : List Char) : List Char :=
  glueSegs (normAbsAux [] (splitOnSlash (tenant ++ '/' :: folder ++ '/' :: name)))

/-! ## Claim C9: the advertised URL names the written file -/

/-- Counterexample to C9 as stated: the folder "a//b" passes the
sanitizer (double slashes are allowed by its regex), but `path.join`
collapses the empty segment while the URL string keeps it, so the
URL's relative component and the written file's relative path differ. -/
theorem urlRel_fileRel_counterexample :
    sanitizeFolder ['a', '/', '/', 'b'] = .ok ['a', '/', '/', 'b'] ∧
    urlRelPath ['t'] ['a', '/', '/', 'b'] ['n'] =
      ['t', '/', 'a', '/', '/', 'b', '/', 'n'] ∧
    fileRelPath ['t'] ['a', '/', '/', 'b'] ['n'] =
      ['t', '/', 'a', '/', 'b', '/', 'n'] ∧
    (¬ urlRelPath ['t'] ['a', '/', '/', 'b'] ['n'] =
      fileRelPath ['t'] ['a', '/', '/', 'b'] ['n']) := by
  refine ⟨rfl, rfl, rfl, ?_⟩
  intro hcon
  exact absurd hcon (by decide)

/-- C9 (amended): for every persisted artifact whose sanitized folder
contains no empty segment (no consecutive slashes; the empty folder is
fine), with a clean tenant segment and a filename that is a single
non-dot segment, the relative path component of the advertised URL
equals the relative path of the written file under the output root, so
the public read mount resolves the URL to exactly the persisted file. -/
theorem urlRel_eq_fileRel (tenant folder name : List Char)
    (htenant : (¬ tenant = []) ∧ (∀ c ∈ tenant, ¬ c = '/') ∧
      (∀ c ∈ tenant, ¬ c = '.'))
    (hfolder : folder = [] ∨ ((∀ c ∈ folder, ¬ c = '.') ∧
      ∀ s ∈ splitOnSlash folder, ¬ s = []))
    (hname : (¬ name = []) ∧ (∀ c ∈ name, ¬ c = '/') ∧
      (¬ name = ['.']) ∧ (¬ name = ['.', '.'])) :
    urlRelPath tenant folder name = fileRelPath tenant folder name := by
  obtain ⟨htne, hts, htd⟩ := htenant
  obtain ⟨hnne, hns, hnd1, hnd2⟩ := hname
  have htvalid : (¬ tenant = []) ∧ (¬ tenant = ['.']) ∧
      (¬ tenant = ['.', '.']) := by
    refine ⟨htne, ?_, ?_⟩
    · intro hcon
      exact htd '.' (by rw [hcon]; simp) rfl
    · intro hcon
      exact htd '.' (by rw [hcon]; simp) rfl
  rcases hfolder with hfnil | ⟨hfd, hfsegs⟩
  · subst hfnil
    unfold urlRelPath fileRelPath
    have hstr : tenant ++ '/' :: ([] : List Char) ++ '/' :: name =
        tenant ++ '/' :: ('/' :: name) := by simp
    rw [hstr]
    unfold splitOnSlash
    rw [splitSlashAux_seg_slash [] ('/' :: name) hts]
    rw [splitSlashAux_cons, if_pos rfl]
    rw [splitSlashAux_no_slash [] hns]
    simp only [List.reverse_nil, List.nil_append]
    rw [normAbsAux_cons,
      if_neg (fun hcon => Or.elim hcon htvalid.1 htvalid.2.1),
      if_neg htvalid.2.2]
    rw [normAbsAux_cons, if_pos (Or.inl rfl)]
    rw [normAbsAux_cons,
      if_neg (fun hcon => Or.elim hcon hnne hnd1), if_neg hnd2]
    have hif : (if ([] : List Char).isEmpty = true then ([] : List Char)
        else '/' :: []) = [] := rfl
    rw [hif, List.append_nil]
    show tenant ++ '/' :: name = glueSegs [tenant, name]
    rw [glueSegs_cons (by simp : ¬ ([name] : List (List Char)) = [])]
    rfl
  · have hfne : ¬ folder = [] := by
      intro hcon
      subst hcon
      exact hfsegs [] (by simp [splitOnSlash, splitSlashAux]) rfl
    unfold urlRelPath fileRelPath
    have hfi : folder.isEmpty = false := by
      cases hcase : folder with
      | nil => exact absurd hcase hfne
      | cons a r => rfl
    rw [hfi]
    simp only [Bool.false_eq_true, if_false]
    have hstr : tenant ++ '/' :: folder ++ '/' :: name =
        tenant ++ '/' :: (folder ++ '/' :: name) := by simp
    rw [hstr]
    unfold splitOnSlash
    rw [splitSlashAux_seg_slash [] (folder ++ '/' :: name) hts]
    rw [splitSlashAux_append_last [] folder hns]
    simp only [List.reverse_nil, List.nil_append]
    have hvalid : ∀ s ∈ tenant :: (splitSlashAux [] folder ++ [name]),
        (¬ s = []) ∧ (¬ s = ['.']) ∧ (¬ s = ['.', '.']) := by
      intro s hs
      rcases List.mem_cons.mp hs with h1 | h2
      · subst h1
        exact htvalid
      · rcases List.mem_append.mp h2 with h3 | h4
        · have hmem : s ∈ splitOnSlash folder := h3
          have hsegne : ¬ s = [] := hfsegs s hmem
          have hsegd : ∀ c ∈ s, ¬ c = '.' := by
            intro c hc
            rcases mem_of_mem_splitSlashAux [] folder s h3 hc with h5 | h6
            · exact absurd h5 (by simp)
            · exact hfd c h6
          refine ⟨hsegne, ?_, ?_⟩
          · intro hcon
            exact hsegd '.' (by rw [hcon]; simp) rfl
          · intro hcon
            exact hsegd '.' (by rw [hcon]; simp) rfl
        · have h5 : s = name := by simpa using h4
          subst h5
          exact ⟨hnne, hnd1, hnd2⟩
    rw [normAbsAux_valid [] hvalid]
    simp only [List.reverse_nil, List.nil_append]
    rw [glueSegs_cons (by simp : ¬ (splitSlashAux [] folder ++ [name]) = [])]
    rw [glueSegs_append (splitSlashAux_ne_nil [] folder)
      (by simp : ¬ ([name] : List (List Char)) = [])]
    have hglue : glueSegs (splitSlashAux [] folder) = folder :=
      glueSegs_splitOnSlash folder
    rw [hglue]
    rfl

/-- Witness for C9 at tenant "t1", folder "g/x", file "img-ab.webp". -/
theorem urlRel_eq_fileRel_witness :
    urlRelPath ['t', '1'] ['g', '/', 'x']
        ['i', 'm', 'g', '-', 'a', 'b', '.', 'w', 'e', 'b', 'p'] =
      fileRelPath ['t', '1'] ['g', '/', 'x']
        ['i', 'm', 'g', '-', 'a', 'b', '.', 'w', 'e', 'b', 'p'] :=
  urlRel_eq_fileRel ['t', '1'] ['g', '/', 'x']
    ['i', 'm', 'g', '-', 'a', 'b', '.', 'w', 'e', 'b', 'p']
    (by refine ⟨by simp, ?_, ?_⟩ <;> decide)
    (Or.inr (by refine ⟨by decide, ?_⟩; decide))
    (by refine ⟨by simp, by decide, by decide, by decide⟩)

/-! ## Auth middleware of the disk-persisted variant -/

/-- The literal mount string "/images" tested by the middleware. -/
def imagesMount : List Char := ['/', 'i', 'm', 'a', 'g', 'e', 's']

/-- The literal health-check path. -/
def healthPath : List Char := ['/', 'h', 'e', 'a', 'l', 't', 'h']

/-- The public test of the middleware: the request path equals
"/health" or starts with the plain string "/images". -/
def authBypass (p : List Char) : Bool :=
  (p == healthPath) || strStarts imagesMount p

/-- Decision taken by the auth middleware on a request. -/
inductive AuthDecision where
  | publicPass
  | authorized (tenant : List Char)
  | unauthorized
deriving DecidableEq, Repr

/-- Embedding of the auth middleware of the persisted variant: public
paths skip credential resolution entirely; otherwise the API key is
resolved and failure yields an unauthorized response. -/
def authMiddleware (registry : List (List Char × TenantEntry))
    (p : List Char) (apiKey : Option (List Char)) : AuthDecision :=
  if authBypass p then .publicPass
  else
    match getTenantFromApiKey registry apiKey with
    | some t => .authorized t
    | none => .unauthorized

/-! ## Claim C10: the bypass is a plain string-prefix test -/

/-- C10: the middleware bypasses credential resolution for every
request path that begins with the literal string "/images", whatever
registry and key are supplied; in particular the sibling path
"/images-evil", which merely extends the prefix without being under
the static mount, is also treated as public. -/
theorem authMiddleware_images_bypass :
    (∀ (registry : List (List Char × TenantEntry))
       (rest : List Char) (apiKey : Option (List Char)),
      authMiddleware registry (imagesMount ++ rest) apiKey =
        AuthDecision.publicPass) ∧
    (∀ (registry : List (List Char × TenantEntry))
       (apiKey : Option (List Char)),
      authMiddleware registry
        ['/', 'i', 'm', 'a', 'g', 'e', 's', '-', 'e', 'v', 'i', 'l']
        apiKey = AuthDecision.publicPass) := by
  constructor
  · intro registry rest apiKey
    unfold authMiddleware
    have hb : authBypass (imagesMount ++ rest) = true := by
      unfold authBypass
      rw [strStarts_append]
      simp
    rw [hb]
    rfl
  · intro registry apiKey
    unfold authMiddleware
    have hb : authBypass
        ['/', 'i', 'm', 'a', 'g', 'e', 's', '-', 'e', 'v', 'i', 'l'] = true := by
      decide
    rw [hb]
    rfl
